import Mathlib

/-!
Shallow embedding of the multi-line math editor
(`src/components/MathLiveDemo.tsx`, component `MathLiveMultilineEditor`)
and proofs about its stated properties.

The expression list is `List String`; the widget pool
(`fieldRefsRef.current : Map<number, MathFieldRef>`) is an association
list kept in JS-`Map` insertion order; handlers are pure functions that
return the new list together with the sequence of `onChange` emissions.
-/

namespace MathLiveMultilineEditor

/-- One record of the widget pool (`interface MathFieldRef` plus the
state of the DOM objects it owns).  `index` is the mutable current index,
`widgetId` stands for the identity of the `math-field` element,
`value` for `mathField.value`, `lineNumberText` for
`lineNumber.textContent`, `lineNumberVisible` for its `display` style,
`listeners` for the event listeners currently attached to the element,
and `inDocument` for whether the wrapper is attached to the container. -/
structure MathFieldRef where
  index : Nat
  widgetId : Nat
  value : String
  lineNumberText : String
  lineNumberVisible : Bool
  listeners : List String
  inDocument : Bool
deriving Repr, DecidableEq

/-- `fieldRefsRef.current : Map<number, MathFieldRef>`, as an association
list in JS-`Map` insertion order. -/
abbrev PoolMap := List (Nat × MathFieldRef)

/-- `Map.get`. -/
def mapGet (m : PoolMap) (k : Nat) : Option MathFieldRef :=
  (m.find? (fun p => p.1 = k)).map Prod.snd

/-- `Map.set`: replaces in place if the key is present, else appends
(JS `Map` keeps insertion order). -/
def mapSet (m : PoolMap) (k : Nat) (v : MathFieldRef) : PoolMap :=
  if m.any (fun p => p.1 = k) then
    m.map (fun p => if p.1 = k then (k, v) else p)
  else m ++ [(k, v)]

/-- `Map.delete`. -/
def mapDelete (m : PoolMap) (k : Nat) : PoolMap :=
  m.filter (fun p => p.1 ≠ k)

/-- `Map.size` (keys are unique in a JS `Map`). -/
def mapSize (m : PoolMap) : Nat := m.length

/-! ## The three `setEquations` updaters

Each handler is embedded as a pure function returning the new expression
list together with the list of arguments passed to `onChange` (the code
calls `onChange` at most once, from inside the updater). -/

/-- `updateEquation` (src lines 137-155), the list part of the updater:
`newEquations = [...prev]; newEquations[index] = value; onChange(newEquations)`.
Callers always pass an in-range `index` (it is a live record's index). -/
def updateEquation (prev : List String) (index : Nat) (value : String) :
    List String × List (List String) :=
  let newEquations := prev.set index value
  (newEquations, [newEquations])

/-- `insertEquation` (src lines 157-169):
`newEquations.splice(index + 1, 0, '')` inserts one empty string at
position `index + 1` (clamped to the length, as `splice` does). -/
def insertEquation (prev : List String) (index : Nat) :
    List String × List (List String) :=
  let newEquations := prev.take (index + 1) ++ [""] ++ prev.drop (index + 1)
  (newEquations, [newEquations])

/-- `removeEquation` (src lines 171-183): guarded by
`equations.length <= minLines`, then `prev.filter((_, i) => i !== index)`. -/
def removeEquation (equations : List String) (index minLines : Nat) :
    List String × List (List String) :=
  if equations.length ≤ minLines then (equations, [])
  else
    let filtered := (equations.enum.filter (fun p => p.1 ≠ index)).map Prod.snd
    (filtered, [filtered])

/-! ## The keydown handler -/

/-- Focus target computed by the deferred task after a removal
(src line 278): `currentIndex > 0 ? currentIndex - 1 : 0`. -/
def removalFocusTarget (currentIndex : Nat) : Nat :=
  if currentIndex > 0 then currentIndex - 1 else 0

/-- Outcome of one `keydownHandler` invocation. -/
structure KeydownResult where
  equations : List String
  emitted : List (List String)
  defaultPrevented : Bool
  deferredFocus : Option Nat
deriving Repr, DecidableEq

/-- `keydownHandler` (src lines 256-285).  `fieldValue` is
`(mathField as any).value` at the time of the event, `currentIndex` is
`fieldRef.index` read at call time.  The Enter branch runs
`insertEquation currentIndex` and schedules focus on `currentIndex + 1`;
the Backspace branch fires only when the field is empty and
`currentIndex >= minLines`, runs `removeEquation currentIndex` and
schedules focus on `removalFocusTarget currentIndex`. -/
def keydownHandler (key : String) (shiftKey ctrlKey metaKey : Bool)
    (fieldValue : String) (currentIndex minLines : Nat)
    (equations : List String) : KeydownResult :=
  if key = "Enter" ∧ shiftKey = false ∧ ctrlKey = false ∧ metaKey = false then
    let r := insertEquation equations currentIndex
    { equations := r.1, emitted := r.2, defaultPrevented := true
      deferredFocus := some (currentIndex + 1) }
  else if key = "Backspace" ∧ fieldValue = "" ∧ minLines ≤ currentIndex then
    let r := removeEquation equations currentIndex minLines
    { equations := r.1, emitted := r.2, defaultPrevented := true
      deferredFocus := some (removalFocusTarget currentIndex) }
  else
    { equations := equations, emitted := [], defaultPrevented := false
      deferredFocus := none }

/-! ## Seeding and external sync -/

/-- The seeding expression used both by the `useState` initializer
(src lines 133-135) and the `initialEquations` sync effect
(src lines 407-409): `initialEquations.length > 0 ? initialEquations : ['']`. -/
def seedEquations (initialEquations : List String) : List String :=
  if initialEquations.length > 0 then initialEquations else [""]

/-- The `initialEquations` sync effect (src lines 405-411): compares
`JSON.stringify(initialEquations)` with `JSON.stringify(equations)`
(structural equality on lists of strings) and resets to the seeded value
when they differ. -/
def syncInitialEquations (initialEquations equations : List String) :
    List String :=
  if initialEquations ≠ equations then seedEquations initialEquations
  else equations

/-! ## The pool reconciliation effect (src lines 186-387) -/

/-- Listener names attached to a freshly created `math-field`
(src lines 253, 286, 293, 307, and 311/328 when `virtualKeyboard`). -/
def creationListeners (virtualKeyboard : Bool) : List String :=
  ["input", "keydown", "focus", "blur"] ++
    (if virtualKeyboard then ["virtual-keyboard-toggle", "mousedown"] else [])

/-- Creation of one line record in the grow branch (src lines 194-350):
the field's value is seeded with `equations[i] || ''`, the ordinal label
with `i + 1`, its visibility with `showLineNumbers`, the handlers are
attached, and the wrapper is appended to the container. `id` stands for
the identity of the freshly created `math-field` element. -/
def mkFieldRef (equations : List String) (showLineNumbers virtualKeyboard : Bool)
    (i id : Nat) : MathFieldRef :=
  { index := i
    widgetId := id
    value := equations.getD i ""
    lineNumberText := toString (i + 1)
    lineNumberVisible := showLineNumbers
    listeners := creationListeners virtualKeyboard
    inDocument := true }

/-- One iteration of the grow loop
(`for (let i = currentCount; i < targetCount; i++) { ... set(i, fieldRef) }`).
The `Nat` component threads fresh element identities. -/
def growStep (equations : List String) (showLineNumbers virtualKeyboard : Bool)
    (st : PoolMap × Nat) (i : Nat) : PoolMap × Nat :=
  (mapSet st.1 i (mkFieldRef equations showLineNumbers virtualKeyboard i st.2),
    st.2 + 1)

/-- One iteration of the shrink loop
(`for (let i = currentCount - 1; i >= targetCount; i--)`): if the key is
present, `fieldRef.wrapper.remove()` (the record leaves the display) and
`fieldRefsRef.current.delete(i)`; removed records are collected. -/
def shrinkStep (st : PoolMap × List MathFieldRef) (i : Nat) :
    PoolMap × List MathFieldRef :=
  match mapGet st.1 i with
  | some r => (mapDelete st.1 i, st.2 ++ [{ r with inDocument := false }])
  | none => st

/-- Stable insertion into a key-sorted prefix, used to model
`Array.from(entries()).sort((a, b) => a[0] - b[0])`. -/
def insertSorted (p : Nat × MathFieldRef) : PoolMap → PoolMap
  | [] => [p]
  | q :: rest => if p.1 ≤ q.1 then p :: q :: rest else q :: insertSorted p rest

/-- `entries sorted by key` (src lines 362-363). -/
def sortByKey : PoolMap → PoolMap
  | [] => []
  | p :: rest => insertSorted p (sortByKey rest)

/-- Outcome of one run of the reconciliation effect: the new pool, the
records whose wrappers were removed from the display, and the updated
fresh-identity counter. -/
structure ReconcileResult where
  pool : PoolMap
  removed : List MathFieldRef
  nextId : Nat
deriving Repr, DecidableEq

/-- The pool reconciliation effect (src lines 186-387).
`currentCount = fieldRefsRef.current.size`, `targetCount = equations.length`;
grow appends fresh records for the new trailing positions, shrink deletes
the trailing keys from `currentCount - 1` down to `targetCount`, then
rebuilds the map from the sorted surviving entries sliced to
`targetCount`, setting `fieldRef.index = newIndex` and the ordinal label;
finally every record's ordinal label text and visibility are refreshed
from its key. -/
def reconcilePool (equations : List String)
    (showLineNumbers virtualKeyboard : Bool)
    (pool : PoolMap) (nextId : Nat) : ReconcileResult :=
  let currentCount := mapSize pool
  let targetCount := equations.length
  let step1 : PoolMap × List MathFieldRef × Nat :=
    if targetCount > currentCount then
      let st := (List.range' currentCount (targetCount - currentCount)).foldl
        (growStep equations showLineNumbers virtualKeyboard) (pool, nextId)
      (st.1, [], st.2)
    else if targetCount < currentCount then
      let st := ((List.range' targetCount (currentCount - targetCount)).reverse).foldl
        shrinkStep (pool, [])
      let remaining := (sortByKey st.1).take targetCount
      let reindexed := remaining.enum.map (fun q =>
        (q.1, { q.2.2 with index := q.1, lineNumberText := toString (q.1 + 1) }))
      (reindexed, st.2, nextId)
    else (pool, [], nextId)
  { pool := step1.1.map (fun q =>
      (q.1, { q.2 with lineNumberText := toString (q.1 + 1)
                       lineNumberVisible := showLineNumbers }))
    removed := step1.2.1
    nextId := step1.2.2 }

/-- The reconciliation `useEffect` returns no cleanup function (the effect
body at src lines 186-387 ends without a `return`), so nothing runs on
unmount to destroy pooled widgets or detach their listeners. -/
def reconcileEffectCleanup : Option (PoolMap → PoolMap) := none

/-! ## The editor as a transition system -/

/-- A user edit, as routed by the handlers: a value edit on line `index`,
an Enter-insert after line `index`, or a Backspace-removal of line
`index`. -/
inductive EditOp where
  | valueEdit (index : Nat) (value : String)
  | insert (index : Nat)
  | remove (index : Nat)
deriving Repr, DecidableEq

/-- Effect of one edit on the expression list. -/
def applyOp (minLines : Nat) (eqs : List String) : EditOp → List String
  | .valueEdit i v => (updateEquation eqs i v).1
  | .insert i => (insertEquation eqs i).1
  | .remove i => (removeEquation eqs i minLines).1

/-- Editor state visible to the reconciliation effect. -/
structure EditorState where
  equations : List String
  pool : PoolMap
  nextId : Nat
deriving Repr, DecidableEq

/-- One edit followed by the reconciliation pass it triggers. -/
def stepEditor (minLines : Nat) (showLineNumbers virtualKeyboard : Bool)
    (s : EditorState) (op : EditOp) : EditorState :=
  let eqs := applyOp minLines s.equations op
  let r := reconcilePool eqs showLineNumbers virtualKeyboard s.pool s.nextId
  { equations := eqs, pool := r.pool, nextId := r.nextId }

/-- Mount: the `useState` seeding followed by the first reconciliation
pass over the empty pool. -/
def initialEditorState (initialEquations : List String)
    (showLineNumbers virtualKeyboard : Bool) : EditorState :=
  let eqs := seedEquations initialEquations
  let r := reconcilePool eqs showLineNumbers virtualKeyboard [] 0
  { equations := eqs, pool := r.pool, nextId := r.nextId }

/-- A whole session: mount, then a sequence of edits, each followed by
its reconciliation pass. -/
def runEditor (initialEquations : List String) (minLines : Nat)
    (showLineNumbers virtualKeyboard : Bool) (ops : List EditOp) : EditorState :=
  ops.foldl (stepEditor minLines showLineNumbers virtualKeyboard)
    (initialEditorState initialEquations showLineNumbers virtualKeyboard)

/-! ## The sync guard (src lines 132, 137-155, 390-402) -/

/-- State relevant to the echo-suppression guard: the expression list,
the values currently displayed by the pooled widgets (by position), and
`isUpdatingFromInputRef.current`. -/
structure SyncState where
  equations : List String
  widgetValues : List String
  isUpdatingFromInput : Bool
deriving Repr, DecidableEq

/-- Body of the external value push effect (src lines 394-401): for each
pooled widget, if `equations[index]` is defined and differs from the
widget's current value, write it into the widget. -/
def pushFieldValues (eqs widgets : List String) : List String :=
  widgets.enum.map (fun q =>
    match eqs.get? q.1 with
    | some e => if q.2 ≠ e then e else q.2
    | none => q.2)

/-- The external value push effect (src lines 390-402): skipped entirely
while `isUpdatingFromInputRef.current` is set. -/
def externalPushPass (s : SyncState) : SyncState :=
  if s.isUpdatingFromInput then s
  else { s with widgetValues := pushFieldValues s.equations s.widgetValues }

/-- An `input` event on the widget at `index` (src lines 244-252 and
137-155): the widget already displays the value the user typed when the
event fires; the handler then sets `isUpdatingFromInputRef.current = true`
and runs the `updateEquation` updater, which emits `onChange`. -/
def inputEdit (s : SyncState) (index : Nat) (value : String) :
    SyncState × List (List String) :=
  let widgets := s.widgetValues.set index value
  let r := updateEquation s.equations index value
  ({ equations := r.1, widgetValues := widgets, isUpdatingFromInput := true },
    r.2)

/-- The `setTimeout(..., 0)` scheduled by `updateEquation`
(src lines 150-152): clears the guard on the next scheduling tick. -/
def clearGuardTick (s : SyncState) : SyncState :=
  { s with isUpdatingFromInput := false }

/-! ## The deferred focus task -/

/-- The deferred focus task scheduled after a removal (src lines 277-283):
look up `removalFocusTarget currentIndex` in the pool; if the record
exists, focus its element, otherwise do nothing.  The result is the id of
the widget that receives focus, if any; the function is total, so the
task never throws. -/
def deferredFocusAfterRemoval (pool : PoolMap) (currentIndex : Nat) :
    Option Nat :=
  match mapGet pool (removalFocusTarget currentIndex) with
  | some field => some field.widgetId
  | none => none

/-- The reindexing invariant: the pool's keys are exactly `0..size-1`,
in order, and every record's mutable `index` field equals its key. -/
def poolWF (m : PoolMap) : Prop :=
  m.map Prod.fst = List.range m.length ∧ ∀ p ∈ m, p.2.index = p.1

/-! # Theorems -/

/-! ## Basic list lemmas about the updaters -/

theorem filter_enumFrom_ne (l : List String) : ∀ (n index : Nat), index < n →
    (List.enumFrom n l).filter (fun p => p.1 ≠ index) = List.enumFrom n l := by
  induction l with
  | nil => intro n index _; rfl
  | cons a l ih =>
    intro n index h
    show List.filter _ ((n, a) :: List.enumFrom (n + 1) l) = _
    rw [List.filter_cons_of_pos (by simp; omega)]
    rw [ih (n + 1) index (by omega)]
    rfl

theorem enumFrom_map_snd (l : List String) : ∀ n,
    (List.enumFrom n l).map Prod.snd = l := by
  induction l with
  | nil => intro n; rfl
  | cons a l ih => intro n; simp [List.enumFrom, ih]

theorem removeFilteredFrom (l : List String) : ∀ (n index : Nat),
    ((List.enumFrom n l).filter (fun p => p.1 ≠ n + index)).map Prod.snd
      = l.eraseIdx index := by
  induction l with
  | nil => intro n index; rfl
  | cons a l ih =>
    intro n index
    cases index with
    | zero =>
      show (List.filter _ ((n, a) :: List.enumFrom (n + 1) l)).map Prod.snd = _
      rw [List.filter_cons_of_neg (by simp)]
      rw [filter_enumFrom_ne l (n + 1) (n + 0) (by omega)]
      show (List.enumFrom (n + 1) l).map Prod.snd = l
      exact enumFrom_map_snd l (n + 1)
    | succ j =>
      rw [show n + (j + 1) = (n + 1) + j from by omega]
      show (List.filter _ ((n, a) :: List.enumFrom (n + 1) l)).map Prod.snd = _
      rw [List.filter_cons_of_pos (by simp; omega)]
      rw [List.map_cons, ih (n + 1) j]
      rfl

/-- `prev.filter((_, i) => i !== index)` is removal of position `index`. -/
theorem removeFiltered_eq_eraseIdx (l : List String) (index : Nat) :
    (l.enum.filter (fun p => p.1 ≠ index)).map Prod.snd = l.eraseIdx index := by
  have := removeFilteredFrom l 0 index
  simpa [List.enum] using this

/-! ## Pool well-formedness lemmas -/

theorem mapSet_of_not_key (m : PoolMap) (k : Nat) (v : MathFieldRef)
    (h : ∀ p ∈ m, p.1 ≠ k) : mapSet m k v = m ++ [(k, v)] := by
  unfold mapSet
  rw [if_neg]
  intro hc
  rcases List.any_eq_true.mp hc with ⟨p, hp, hpk⟩
  exact h p hp (by simpa using hpk)

theorem keys_lt_of_range (m : PoolMap) (h : m.map Prod.fst = List.range m.length)
    (p : Nat × MathFieldRef) (hp : p ∈ m) : p.1 < m.length := by
  have h1 : p.1 ∈ m.map Prod.fst := List.mem_map_of_mem Prod.fst hp
  rw [h] at h1
  exact List.mem_range.mp h1

theorem growLoop_wf (eqs : List String) (sln vk : Bool) :
    ∀ (k : Nat) (pool : PoolMap) (nid : Nat),
      pool.map Prod.fst = List.range pool.length →
      (∀ p ∈ pool, p.2.index = p.1) →
      (((List.range' pool.length k).foldl (growStep eqs sln vk) (pool, nid)).1.map
          Prod.fst = List.range (pool.length + k)) ∧
      (∀ p ∈ ((List.range' pool.length k).foldl (growStep eqs sln vk)
          (pool, nid)).1, p.2.index = p.1) := by
  intro k
  induction k with
  | zero =>
    intro pool nid h1 h2
    constructor
    · simpa using h1
    · simpa using h2
  | succ k ih =>
    intro pool nid h1 h2
    rw [List.range'_succ, List.foldl_cons]
    have hset : growStep eqs sln vk (pool, nid) pool.length =
        (pool ++ [(pool.length, mkFieldRef eqs sln vk pool.length nid)], nid + 1) := by
      unfold growStep
      rw [mapSet_of_not_key]
      intro p hp
      have := keys_lt_of_range pool h1 p hp
      omega
    rw [hset]
    have hlen : (pool ++ [(pool.length, mkFieldRef eqs sln vk pool.length nid)]).length
        = pool.length + 1 := by simp
    have h1' : (pool ++ [(pool.length, mkFieldRef eqs sln vk pool.length nid)]).map
        Prod.fst = List.range (pool ++
          [(pool.length, mkFieldRef eqs sln vk pool.length nid)]).length := by
      rw [hlen, List.map_append, h1, List.range_succ]
      rfl
    have h2' : ∀ p ∈ pool ++ [(pool.length, mkFieldRef eqs sln vk pool.length nid)],
        p.2.index = p.1 := by
      intro p hp
      rcases List.mem_append.mp hp with hl | hr
      · exact h2 p hl
      · rcases List.mem_singleton.mp hr with rfl
        rfl
    have := ih (pool ++ [(pool.length, mkFieldRef eqs sln vk pool.length nid)])
      (nid + 1) h1' h2'
    rw [hlen] at this
    constructor
    · rw [show pool.length + (k + 1) = pool.length + 1 + k from by omega]
      exact this.1
    · exact this.2

theorem pairwise_lt_range'_1 : ∀ (n s : Nat), (List.range' s n).Pairwise (· < ·) := by
  intro n
  induction n with
  | zero => intro s; exact List.Pairwise.nil
  | succ n ih =>
    intro s
    rw [List.range'_succ]
    rw [List.pairwise_cons]
    constructor
    · intro m hm
      have := List.mem_range'_1.mp hm
      omega
    · exact ih (s + 1)

theorem insertSorted_of_lt_head (p : Nat × MathFieldRef) :
    ∀ (m : PoolMap), (∀ q ∈ m, p.1 < q.1) → insertSorted p m = p :: m := by
  intro m
  cases m with
  | nil => intro _; rfl
  | cons q rest =>
    intro h
    unfold insertSorted
    rw [if_pos (Nat.le_of_lt (h q (by simp)))]

theorem sortByKey_sorted (m : PoolMap)
    (h : m.Pairwise (fun a b => a.1 < b.1)) : sortByKey m = m := by
  induction m with
  | nil => rfl
  | cons p rest ih =>
    rw [List.pairwise_cons] at h
    unfold sortByKey
    rw [ih h.2, insertSorted_of_lt_head p rest h.1]

theorem shrinkStep_fst (st : PoolMap × List MathFieldRef) (i : Nat) :
    (shrinkStep st i).1 = mapDelete st.1 i := by
  unfold shrinkStep
  cases hg : mapGet st.1 i with
  | some r => rfl
  | none =>
    have hfind : st.1.find? (fun p => p.1 = i) = none := by
      have := hg
      unfold mapGet at this
      exact Option.map_eq_none'.mp this
    have hall := List.find?_eq_none.mp hfind
    show st.1 = mapDelete st.1 i
    unfold mapDelete
    symm
    rw [List.filter_eq_self]
    intro p hp
    have := hall p hp
    simpa using this

theorem foldl_shrink_fst (ks : List Nat) :
    ∀ (pool : PoolMap) (rem : List MathFieldRef),
      (ks.foldl shrinkStep (pool, rem)).1 = ks.foldl mapDelete pool := by
  induction ks with
  | nil => intro pool rem; rfl
  | cons k ks ih =>
    intro pool rem
    rw [List.foldl_cons, List.foldl_cons]
    have h := shrinkStep_fst (pool, rem) k
    rcases hs : shrinkStep (pool, rem) k with ⟨p, r⟩
    rw [hs] at h
    simp only at h
    rw [ih p r, h]

theorem foldl_mapDelete_eq_filter (ks : List Nat) : ∀ (pool : PoolMap),
    ks.foldl mapDelete pool = pool.filter (fun p => p.1 ∉ ks) := by
  induction ks with
  | nil =>
    intro pool
    rw [List.foldl_nil]
    symm
    rw [List.filter_eq_self]
    intro p _
    simp
  | cons k ks ih =>
    intro pool
    rw [List.foldl_cons, ih (mapDelete pool k)]
    unfold mapDelete
    rw [List.filter_filter]
    apply List.filter_congr
    intro a _
    by_cases h1 : a.1 ∈ ks <;> by_cases h2 : a.1 = k <;>
      simp [h1, h2]

theorem shrink_removed_from_pool (ks : List Nat) :
    ∀ (pool : PoolMap) (rem : List MathFieldRef),
      ∀ r ∈ (ks.foldl shrinkStep (pool, rem)).2,
        r ∈ rem ∨ ∃ k r0, (k, r0) ∈ pool ∧ r = { r0 with inDocument := false } := by
  induction ks with
  | nil => intro pool rem r hr; exact Or.inl hr
  | cons k ks ih =>
    intro pool rem r hr
    rw [List.foldl_cons] at hr
    rcases hmem : mapGet pool k with _ | r0
    · have hstep : shrinkStep (pool, rem) k = (pool, rem) := by
        unfold shrinkStep
        rw [hmem]
      rw [hstep] at hr
      rcases ih pool rem r hr with h | ⟨k1, r1, hk1, hr1⟩
      · exact Or.inl h
      · exact Or.inr ⟨k1, r1, hk1, hr1⟩
    · have hstep : shrinkStep (pool, rem) k =
          (mapDelete pool k, rem ++ [{ r0 with inDocument := false }]) := by
        unfold shrinkStep
        rw [hmem]
      rw [hstep] at hr
      rcases ih (mapDelete pool k)
          (rem ++ [{ r0 with inDocument := false }]) r hr with h | ⟨k1, r1, hk1, hr1⟩
      · rcases List.mem_append.mp h with h | h
        · exact Or.inl h
        · rcases List.mem_singleton.mp h with rfl
          right
          refine ⟨k, r0, ?_, rfl⟩
          unfold mapGet at hmem
          rcases hfind : pool.find? (fun p => p.1 = k) with _ | q
          · rw [hfind] at hmem; exact absurd hmem (by simp)
          · rw [hfind] at hmem
            have hq2 : q.2 = r0 := by simpa using hmem
            have hq1 : q.1 = k := by
              have := List.find?_some hfind
              simpa using this
            have hqmem := List.mem_of_find?_eq_some hfind
            rw [← hq1, ← hq2]
            exact hqmem
      · right
        refine ⟨k1, r1, ?_, hr1⟩
        exact List.mem_of_mem_filter hk1

theorem map_fst_filter_lt (pool : PoolMap) (t : Nat) :
    (pool.filter (fun p => p.1 < t)).map Prod.fst
      = (pool.map Prod.fst).filter (fun k => k < t) := by
  induction pool with
  | nil => rfl
  | cons a l ih =>
    by_cases h : a.1 < t
    · rw [List.filter_cons_of_pos (by simpa using h), List.map_cons,
        List.map_cons, List.filter_cons_of_pos (by simpa using h), ih]
    · rw [List.filter_cons_of_neg (by simpa using h), List.map_cons,
        List.filter_cons_of_neg (by simpa using h), ih]

theorem range_filter_lt : ∀ (n t : Nat), t ≤ n →
    (List.range n).filter (fun k => k < t) = List.range t := by
  intro n
  induction n with
  | zero =>
    intro t ht
    have : t = 0 := by omega
    rw [this]
    rfl
  | succ n ih =>
    intro t ht
    rw [List.range_succ, List.filter_append]
    rcases Nat.lt_or_ge n t with h | h
    · have : t = n + 1 := by omega
      subst this
      rw [List.filter_cons_of_pos (by simp only [decide_eq_true_eq]; omega)]
      have hself : (List.range n).filter (fun k => k < n + 1) = List.range n := by
        rw [List.filter_eq_self]
        intro a ha
        have := List.mem_range.mp ha
        simp only [decide_eq_true_eq]
        omega
      rw [hself]
      exact (List.range_succ n).symm
    · rw [List.filter_cons_of_neg (by simpa using by omega)]
      rw [ih t h]
      simp

theorem map_final_fst (m : PoolMap) (sln : Bool) :
    (m.map (fun q => (q.1,
        { q.2 with lineNumberText := toString (q.1 + 1),
                   lineNumberVisible := sln }))).map Prod.fst
      = m.map Prod.fst := by
  rw [List.map_map]
  rfl

theorem map_final_index (m : PoolMap) (sln : Bool)
    (h : ∀ p ∈ m, p.2.index = p.1) :
    ∀ p ∈ m.map (fun q => (q.1,
        { q.2 with lineNumberText := toString (q.1 + 1),
                   lineNumberVisible := sln })), p.2.index = p.1 := by
  intro p hp
  rcases List.mem_map.mp hp with ⟨q, hq, rfl⟩
  exact h q hq

theorem reindex_map_fst (m : PoolMap) :
    (m.enum.map (fun q =>
        (q.1, { q.2.2 with index := q.1, lineNumberText := toString (q.1 + 1) }))).map
        Prod.fst
      = List.range m.length := by
  rw [List.map_map]
  have hcomp : (Prod.fst ∘ fun q : Nat × (Nat × MathFieldRef) => (q.1,
      { q.2.2 with index := q.1, lineNumberText := toString (q.1 + 1) }))
      = Prod.fst := by funext q; rfl
  rw [hcomp]
  show (List.enumFrom 0 m).map Prod.fst = List.range m.length
  rw [List.enumFrom_map_fst, List.range_eq_range']

theorem reindex_index (m : PoolMap) :
    ∀ p ∈ m.enum.map (fun q =>
        (q.1, { q.2.2 with index := q.1, lineNumberText := toString (q.1 + 1) })),
      p.2.index = p.1 := by
  intro p hp
  rcases List.mem_map.mp hp with ⟨q, _, rfl⟩
  rfl

theorem reindex_length (m : PoolMap) :
    (m.enum.map (fun q =>
        (q.1, { q.2.2 with index := q.1, lineNumberText := toString (q.1 + 1) }))).length
      = m.length := by
  rw [List.length_map, List.enum_length]

/-- The reconciliation pass restores the reindexing invariant and makes the
pool size equal the expression list length. -/
theorem reconcilePool_wf (eqs : List String) (sln vk : Bool) (pool : PoolMap)
    (nid : Nat)
    (h1 : pool.map Prod.fst = List.range pool.length)
    (h2 : ∀ p ∈ pool, p.2.index = p.1) :
    ((reconcilePool eqs sln vk pool nid).pool.map Prod.fst
        = List.range eqs.length) ∧
    (∀ p ∈ (reconcilePool eqs sln vk pool nid).pool, p.2.index = p.1) ∧
    (reconcilePool eqs sln vk pool nid).pool.length = eqs.length := by
  unfold reconcilePool
  simp only [mapSize]
  split_ifs with hgt hlt
  all_goals dsimp only
  · -- grow branch
    have hg := growLoop_wf eqs sln vk (eqs.length - pool.length) pool nid h1 h2
    have harith : pool.length + (eqs.length - pool.length) = eqs.length := by omega
    rw [harith] at hg
    refine ⟨?_, ?_, ?_⟩
    · rw [map_final_fst]
      exact hg.1
    · exact map_final_index _ sln hg.2
    · have := congrArg List.length (map_final_fst (((List.range' pool.length
        (eqs.length - pool.length)).foldl (growStep eqs sln vk) (pool, nid)).1) sln)
      simp only [List.length_map] at this ⊢
      have hlen := congrArg List.length hg.1
      simp only [List.length_map, List.length_range] at hlen
      exact hlen
  · -- shrink branch
    rw [foldl_shrink_fst, foldl_mapDelete_eq_filter]
    have hfilter : pool.filter
        (fun p => p.1 ∉ (List.range' eqs.length (pool.length - eqs.length)).reverse)
        = pool.filter (fun p => p.1 < eqs.length) := by
      apply List.filter_congr
      intro x hx
      have hxlt := keys_lt_of_range pool h1 x hx
      rw [decide_eq_decide, List.mem_reverse, List.mem_range'_1]
      omega
    rw [hfilter]
    have hfst : (pool.filter (fun p => p.1 < eqs.length)).map Prod.fst
        = List.range eqs.length := by
      rw [map_fst_filter_lt, h1, range_filter_lt pool.length eqs.length (by omega)]
    have hlen1 : (pool.filter (fun p => p.1 < eqs.length)).length = eqs.length := by
      have := congrArg List.length hfst
      simpa using this
    have hpair : (pool.filter (fun p => p.1 < eqs.length)).Pairwise
        (fun a b => a.1 < b.1) := by
      have hp := pairwise_lt_range'_1 eqs.length 0
      rw [← List.range_eq_range', ← hfst] at hp
      exact List.pairwise_map.mp hp
    rw [sortByKey_sorted _ hpair]
    rw [List.take_of_length_le (le_of_eq hlen1)]
    refine ⟨?_, ?_, ?_⟩
    · rw [map_final_fst, reindex_map_fst, hlen1]
    · exact map_final_index _ sln (reindex_index _)
    · rw [List.length_map, reindex_length, hlen1]
  · -- equal branch
    have heq : eqs.length = pool.length := by omega
    refine ⟨?_, ?_, ?_⟩
    · rw [map_final_fst, h1, heq]
    · exact map_final_index _ sln h2
    · simp only [List.length_map]
      omega

/-- When the target length equals the current pool size, the
reconciliation pass takes neither the grow nor the shrink branch: it only
refreshes each record's ordinal label from its key. -/
theorem reconcilePool_same_size (eqs : List String) (sln vk : Bool)
    (pool : PoolMap) (nid : Nat) (h : eqs.length = pool.length) :
    reconcilePool eqs sln vk pool nid =
      { pool := pool.map (fun q => (q.1,
          { q.2 with lineNumberText := toString (q.1 + 1),
                     lineNumberVisible := sln }))
        removed := []
        nextId := nid } := by
  unfold reconcilePool
  simp only [mapSize]
  rw [if_neg (by omega), if_neg (by omega)]

theorem mapGet_wf (m : PoolMap) (h1 : m.map Prod.fst = List.range m.length)
    (h2 : ∀ p ∈ m, p.2.index = p.1) (i : Nat) (hi : i < m.length) :
    ∃ r, mapGet m i = some r ∧ r.index = i := by
  have hmem : i ∈ m.map Prod.fst := by
    rw [h1]
    exact List.mem_range.mpr hi
  rcases List.mem_map.mp hmem with ⟨p, hp, hpi⟩
  have hsome : (m.find? (fun p => p.1 = i)).isSome := by
    rw [List.find?_isSome]
    exact ⟨p, hp, by simpa using hpi⟩
  rcases hfind : m.find? (fun p => p.1 = i) with _ | q
  · rw [hfind] at hsome
    simp at hsome
  · refine ⟨q.2, ?_, ?_⟩
    · unfold mapGet
      rw [hfind]
      rfl
    · have hq1 : q.1 = i := by
        have := List.find?_some hfind
        simpa using this
      have := h2 q (List.mem_of_find?_eq_some hfind)
      rw [this, hq1]

theorem foldl_stepEditor_wf (minL : Nat) (sln vk : Bool) :
    ∀ (ops : List EditOp) (s : EditorState),
      (s.pool.map Prod.fst = List.range s.pool.length) →
      (∀ p ∈ s.pool, p.2.index = p.1) →
      (s.pool.length = s.equations.length) →
      ((ops.foldl (stepEditor minL sln vk) s).pool.map Prod.fst
          = List.range (ops.foldl (stepEditor minL sln vk) s).pool.length) ∧
      (∀ p ∈ (ops.foldl (stepEditor minL sln vk) s).pool, p.2.index = p.1) ∧
      ((ops.foldl (stepEditor minL sln vk) s).pool.length
          = (ops.foldl (stepEditor minL sln vk) s).equations.length) := by
  intro ops
  induction ops with
  | nil =>
    intro s h1 h2 h3
    exact ⟨h1, h2, h3⟩
  | cons op ops ih =>
    intro s h1 h2 h3
    rw [List.foldl_cons]
    have hw := reconcilePool_wf (applyOp minL s.equations op) sln vk s.pool
      s.nextId h1 h2
    have hpool : (stepEditor minL sln vk s op).pool
        = (reconcilePool (applyOp minL s.equations op) sln vk s.pool
          s.nextId).pool := rfl
    apply ih
    · rw [hpool, hw.1, hw.2.2]
    · rw [hpool]
      exact hw.2.1
    · rw [hpool]
      exact hw.2.2

theorem runEditor_wf (init : List String) (minL : Nat) (sln vk : Bool)
    (ops : List EditOp) :
    ((runEditor init minL sln vk ops).pool.map Prod.fst
        = List.range (runEditor init minL sln vk ops).pool.length) ∧
    (∀ p ∈ (runEditor init minL sln vk ops).pool, p.2.index = p.1) ∧
    ((runEditor init minL sln vk ops).pool.length
        = (runEditor init minL sln vk ops).equations.length) := by
  unfold runEditor
  have hw := reconcilePool_wf (seedEquations init) sln vk [] 0 rfl
    (by intro p hp; cases hp)
  have hpool : (initialEditorState init sln vk).pool
      = (reconcilePool (seedEquations init) sln vk [] 0).pool := rfl
  have heqs : (initialEditorState init sln vk).equations = seedEquations init :=
    rfl
  apply foldl_stepEditor_wf
  · rw [hpool, hw.1, hw.2.2]
  · rw [hpool]
    exact hw.2.1
  · rw [hpool, heqs]
    exact hw.2.2

/-! # Claim theorems -/

/-- Claim C1: after every reconciliation pass — after mount and after each
edit in any sequence of value edits, inserts and removals — the pool
satisfies `pool.size == equations.length`, and the record at every
position `i < N` exists and has `index = i`. -/
theorem claim1_pool_invariant :
    ∀ (initialEquations : List String) (minLines : Nat)
      (showLineNumbers virtualKeyboard : Bool) (ops : List EditOp),
      (mapSize (runEditor initialEquations minLines showLineNumbers
          virtualKeyboard ops).pool
        = (runEditor initialEquations minLines showLineNumbers
            virtualKeyboard ops).equations.length) ∧
      (∀ i < (runEditor initialEquations minLines showLineNumbers
          virtualKeyboard ops).equations.length,
        ∃ r, mapGet (runEditor initialEquations minLines showLineNumbers
            virtualKeyboard ops).pool i = some r ∧ r.index = i) := by
  intro init minL sln vk ops
  obtain ⟨h1, h2, h3⟩ := runEditor_wf init minL sln vk ops
  refine ⟨h3, ?_⟩
  intro i hi
  apply mapGet_wf _ h1 h2
  omega

theorem claim1_pool_invariant_witness :
    ∃ r, mapGet (runEditor ["a", "b"] 1 true true [EditOp.insert 0]).pool 2
        = some r ∧ r.index = 2 :=
  (claim1_pool_invariant ["a", "b"] 1 true true [EditOp.insert 0]).2 2 (by decide)

/-- Claim C2: Enter without Shift/Ctrl/Meta on the widget at line `i` is
intercepted and inserts one blank line right after `i`: the result is
`l.take (i+1) ++ [""] ++ l.drop (i+1)`; in particular from `["a","b"]`
with Enter at index 0 the result is `["a","","b"]`, and the line
previously at index 1 is now at index 2. -/
theorem claim2_enter_inserts_blank_line :
    ∀ (l : List String) (i minLines : Nat) (fieldValue : String),
      ((keydownHandler "Enter" false false false fieldValue i minLines
          l).equations = l.take (i + 1) ++ [""] ++ l.drop (i + 1)) ∧
      ((keydownHandler "Enter" false false false fieldValue i minLines
          l).defaultPrevented = true) ∧
      ((keydownHandler "Enter" false false false "x" 0 1 ["a", "b"]).equations
          = ["a", "", "b"]) ∧
      (["a", "", "b"].get? 2 = some "b") := by
  intro l i minL wv
  unfold keydownHandler
  rw [if_pos ⟨rfl, rfl, rfl, rfl⟩]
  exact ⟨rfl, rfl, by decide, rfl⟩

/-- Claim C3: Backspace on the widget at line `i` whose value is the empty
string, with `i ≥ minLines`, removes exactly entry `i`; in particular from
`["a","","b"]` with `minLines = 1`, Backspace at index 1 yields
`["a","b"]` and the line previously at index 2 is now at index 1. -/
theorem claim3_backspace_removes_empty_line
    (l : List String) (i minLines : Nat) (h1 : i < l.length)
    (h2 : l.get ⟨i, h1⟩ = "") (h3 : minLines ≤ i) :
    ((keydownHandler "Backspace" false false false (l.get ⟨i, h1⟩) i minLines
        l).equations = l.take i ++ l.drop (i + 1)) ∧
    ((keydownHandler "Backspace" false false false (l.get ⟨i, h1⟩) i minLines
        l).defaultPrevented = true) ∧
    ((keydownHandler "Backspace" false false false "" 1 1
        ["a", "", "b"]).equations = ["a", "b"]) ∧
    (["a", "b"].get? 1 = some "b") := by
  unfold keydownHandler
  rw [if_neg (by intro hc; exact absurd hc.1 (by decide))]
  rw [if_pos ⟨rfl, h2, h3⟩]
  have hrem : (removeEquation l i minLines).1 = l.take i ++ l.drop (i + 1) := by
    unfold removeEquation
    rw [if_neg (by omega)]
    show (l.enum.filter (fun p => p.1 ≠ i)).map Prod.snd = _
    rw [removeFiltered_eq_eraseIdx, List.eraseIdx_eq_take_drop_succ]
  exact ⟨hrem, rfl, by decide, rfl⟩

theorem claim3_backspace_removes_empty_line_witness :
    (keydownHandler "Backspace" false false false
        (["a", "", "b"].get ⟨1, by decide⟩) 1 1 ["a", "", "b"]).equations
      = ["a", "", "b"].take 1 ++ ["a", "", "b"].drop 2 :=
  (claim3_backspace_removes_empty_line ["a", "", "b"] 1 1 (by decide)
    (by decide) (by decide)).1

/-- Claim C4: the echo-suppression guard.  An input edit sets the guard
(before the update is emitted), leaves the typed value in the widget, the
external push pass is skipped entirely while the guard is set — so any
number of push passes before the clearing tick leave the state, including
the freshly typed value, unchanged — and the scheduled tick clears the
guard. -/
theorem claim4_echo_suppression :
    ∀ (s : SyncState) (index : Nat) (value : String),
      ((inputEdit s index value).1.isUpdatingFromInput = true) ∧
      ((inputEdit s index value).1.widgetValues
          = s.widgetValues.set index value) ∧
      (∀ t : SyncState, t.isUpdatingFromInput = true →
        externalPushPass t = t) ∧
      (∀ n : Nat, externalPushPass^[n] (inputEdit s index value).1
          = (inputEdit s index value).1) ∧
      ((clearGuardTick (inputEdit s index value).1).isUpdatingFromInput
          = false) := by
  intro s i v
  have hskip : ∀ t : SyncState, t.isUpdatingFromInput = true →
      externalPushPass t = t := by
    intro t ht
    unfold externalPushPass
    rw [if_pos ht]
  refine ⟨rfl, rfl, hskip, ?_, rfl⟩
  intro n
  induction n with
  | zero => rfl
  | succ n ih => rw [Function.iterate_succ_apply', ih, hskip _ rfl]

theorem claim4_echo_suppression_witness :
    externalPushPass (⟨["b"], ["b"], true⟩ : SyncState)
      = (⟨["b"], ["b"], true⟩ : SyncState) :=
  (claim4_echo_suppression (⟨["a"], ["a"], false⟩ : SyncState) 0 "b").2.2.1
    _ rfl

/-- Claim C5: every value edit and every structural edit calls `onChange`
exactly once, from inside the updater (synchronously with the edit), with
the full updated list as its argument (for a removal, whenever the
`minLines` guard lets the removal happen at all). -/
theorem claim5_onchange_once :
    ∀ (prev : List String) (index minLines : Nat) (value : String),
      ((updateEquation prev index value).2
          = [(updateEquation prev index value).1]) ∧
      ((insertEquation prev index).2 = [(insertEquation prev index).1]) ∧
      (minLines < prev.length →
        (removeEquation prev index minLines).2
          = [(removeEquation prev index minLines).1]) := by
  intro prev i minL v
  refine ⟨rfl, rfl, ?_⟩
  intro h
  unfold removeEquation
  rw [if_neg (by omega)]

theorem claim5_onchange_once_witness :
    (removeEquation ["a", "b"] 0 1).2 = [(removeEquation ["a", "b"] 0 1).1] :=
  (claim5_onchange_once ["a", "b"] 0 1 "x").2.2 (by decide)

/-- Claim C6: the `minLines` floor.  With `minLines ≥ 1` and at least
`minLines` lines, no keydown can drive the list below `minLines` lines;
concretely, Backspace at index 0 on an empty widget with `["a"]` (or
`[""]`) and `minLines = 1` is not intercepted, emits nothing, leaves the
list unchanged, and the ensuing pass mutates no pool record. -/
theorem claim6_minlines_floor :
    ∀ (l : List String) (key fieldValue : String) (sk ck mk : Bool)
      (i minLines : Nat), 1 ≤ minLines → minLines ≤ l.length →
      (minLines ≤ (keydownHandler key sk ck mk fieldValue i minLines
          l).equations.length) ∧
      ((keydownHandler "Backspace" false false false "" 0 1 ["a"]).equations
          = ["a"]) ∧
      ((keydownHandler "Backspace" false false false "" 0 1
          ["a"]).defaultPrevented = false) ∧
      ((keydownHandler "Backspace" false false false "" 0 1 ["a"]).emitted
          = []) ∧
      ((keydownHandler "Backspace" false false false "" 0 1 [""]).equations
          = [""]) ∧
      (∀ (pool : PoolMap) (nid : Nat) (sln vk : Bool), mapSize pool = 1 →
        (reconcilePool (keydownHandler "Backspace" false false false "" 0 1
            ["a"]).equations sln vk pool nid).removed = [] ∧
        (reconcilePool (keydownHandler "Backspace" false false false "" 0 1
            ["a"]).equations sln vk pool nid).nextId = nid) := by
  intro l key wv sk ck mk i minL hmin hlen
  have hmain : minL ≤ (keydownHandler key sk ck mk wv i minL
      l).equations.length := by
    unfold keydownHandler
    split_ifs with hEnter hBack
    · show minL ≤ (insertEquation l i).1.length
      have : (insertEquation l i).1.length = l.length + 1 := by
        unfold insertEquation
        simp only [List.length_append, List.length_take, List.length_drop,
          List.length_cons, List.length_nil]
        omega
      omega
    · show minL ≤ (removeEquation l i minL).1.length
      unfold removeEquation
      split_ifs with hle
      · exact hlen
      · show minL ≤ ((l.enum.filter (fun p => p.1 ≠ i)).map Prod.snd).length
        rw [removeFiltered_eq_eraseIdx, List.length_eraseIdx]
        split_ifs <;> omega
    · exact hlen
  have hpool : ∀ (pool : PoolMap) (nid : Nat) (sln vk : Bool),
      mapSize pool = 1 →
      (reconcilePool (keydownHandler "Backspace" false false false "" 0 1
          ["a"]).equations sln vk pool nid).removed = [] ∧
      (reconcilePool (keydownHandler "Backspace" false false false "" 0 1
          ["a"]).equations sln vk pool nid).nextId = nid := by
    intro pool nid sln vk hsize
    have heqs : (keydownHandler "Backspace" false false false "" 0 1
        ["a"]).equations = ["a"] := by decide
    rw [heqs]
    rw [reconcilePool_same_size ["a"] sln vk pool nid (by
      show (1 : Nat) = pool.length
      exact hsize.symm)]
    exact ⟨rfl, rfl⟩
  exact ⟨hmain, by decide, by decide, by decide, by decide, hpool⟩

theorem claim6_minlines_floor_witness :
    (reconcilePool (keydownHandler "Backspace" false false false "" 0 1
        ["a"]).equations true true [(0, mkFieldRef ["a"] true true 0 0)]
        5).removed = [] ∧
    (reconcilePool (keydownHandler "Backspace" false false false "" 0 1
        ["a"]).equations true true [(0, mkFieldRef ["a"] true true 0 0)]
        5).nextId = 5 :=
  (claim6_minlines_floor ["a"] "Backspace" "" false false false 0 1
    (by decide) (by decide)).2.2.2.2.2 [(0, mkFieldRef ["a"] true true 0 0)]
    5 true true rfl

/-- Claim C7 counterexample: a structurally unequal `initialEquations`
does NOT always reset the internal list to it — with current state
`["a"]` and `initialEquations = []` (unequal), the sync effect resets the
list to `[""]`, not to `[]`. -/
theorem claim7_counterexample :
    ([] : List String) ≠ ["a"] ∧
    syncInitialEquations [] ["a"] = [""] ∧
    syncInitialEquations [] ["a"] ≠ ([] : List String) := by
  exact ⟨by decide, by decide, by decide⟩

/-- Claim C7 (amended): applying the same `initialEquations` twice in a
row is idempotent — the second application yields the same list again,
so, the length being unchanged, the ensuing reconciliation pass destroys
no record, creates no widget and keeps every widget identity in place.  A
structurally unequal `initialEquations` resets the internal list to it
when it is nonempty, and to `[""]` when it is empty. -/
theorem claim7_idempotent_reset :
    ∀ (init cur : List String) (sln vk : Bool) (pool : PoolMap) (nid : Nat),
      (syncInitialEquations init (syncInitialEquations init cur)
          = syncInitialEquations init cur) ∧
      (init ≠ cur → init ≠ [] → syncInitialEquations init cur = init) ∧
      (init = [] → cur ≠ [] → syncInitialEquations init cur = [""]) ∧
      (mapSize pool = (syncInitialEquations init cur).length →
        (reconcilePool (syncInitialEquations init
            (syncInitialEquations init cur)) sln vk pool nid).removed = [] ∧
        (reconcilePool (syncInitialEquations init
            (syncInitialEquations init cur)) sln vk pool nid).nextId = nid ∧
        (reconcilePool (syncInitialEquations init
            (syncInitialEquations init cur)) sln vk pool
            nid).pool.map (fun p => (p.1, p.2.widgetId))
          = pool.map (fun p => (p.1, p.2.widgetId))) := by
  intro init cur sln vk pool nid
  have hidem : syncInitialEquations init (syncInitialEquations init cur)
      = syncInitialEquations init cur := by
    unfold syncInitialEquations seedEquations
    split_ifs with h1 h2 h3 <;> simp_all
  refine ⟨hidem, ?_, ?_, ?_⟩
  · intro hne hnil
    unfold syncInitialEquations seedEquations
    rw [if_pos hne, if_pos (by
      cases init with
      | nil => exact absurd rfl hnil
      | cons a t => simp)]
  · intro hinit hcur
    subst hinit
    unfold syncInitialEquations seedEquations
    rw [if_pos (by exact fun hc => hcur hc.symm)]
    rfl
  · intro hsize
    rw [hidem]
    rw [reconcilePool_same_size _ sln vk pool nid (by
      show (syncInitialEquations init cur).length = pool.length
      exact hsize.symm)]
    refine ⟨rfl, rfl, ?_⟩
    rw [List.map_map]
    rfl

theorem claim7_idempotent_reset_witness :
    (reconcilePool (syncInitialEquations ["x"]
        (syncInitialEquations ["x"] [""])) true true
        [(0, mkFieldRef ["x"] true true 0 0)] 1).removed = [] ∧
    (reconcilePool (syncInitialEquations ["x"]
        (syncInitialEquations ["x"] [""])) true true
        [(0, mkFieldRef ["x"] true true 0 0)] 1).nextId = 1 ∧
    (reconcilePool (syncInitialEquations ["x"]
        (syncInitialEquations ["x"] [""])) true true
        [(0, mkFieldRef ["x"] true true 0 0)]
        1).pool.map (fun p => (p.1, p.2.widgetId))
      = [(0, mkFieldRef ["x"] true true 0 0)].map
          (fun p => (p.1, p.2.widgetId)) :=
  (claim7_idempotent_reset ["x"] [""] true true
    [(0, mkFieldRef ["x"] true true 0 0)] 1).2.2.2 (by decide)

/-- Claim C8 counterexample: when the pool shrinks past a record, the
record's wrapper leaves the display and the record leaves the pool, but
its event listeners are NOT removed — the destroyed record still carries
all six attached listeners — and the reconciliation effect registers no
cleanup function, so nothing detaches listeners at unmount either. -/
theorem claim8_counterexample :
    ((reconcilePool ["a"] true true
        (reconcilePool ["a", ""] true true [] 0).pool 2).removed.map
          (fun r => r.listeners))
        = [["input", "keydown", "focus", "blur", "virtual-keyboard-toggle",
            "mousedown"]] ∧
    (["input", "keydown", "focus", "blur", "virtual-keyboard-toggle",
        "mousedown"] : List String) ≠ [] ∧
    reconcileEffectCleanup = none := by
  exact ⟨by decide, by decide, rfl⟩

/-- Claim C8 (amended): destroying a line record during a shrink pass
removes its container from the display (`wrapper.remove()`) and drops it
from the pool, the destroyed record being one of the previous pool's
records; its event listeners are never detached, and the reconciliation
effect has no cleanup function, so unmount does not synchronously destroy
pooled widgets or detach listeners. -/
theorem claim8_destroy_behavior :
    ∀ (eqs : List String) (sln vk : Bool) (pool : PoolMap) (nid : Nat),
      (∀ r ∈ (reconcilePool eqs sln vk pool nid).removed,
        r.inDocument = false ∧
        ∃ k r0, (k, r0) ∈ pool ∧ r = { r0 with inDocument := false }) ∧
      reconcileEffectCleanup = none := by
  intro eqs sln vk pool nid
  refine ⟨?_, rfl⟩
  intro r hr
  unfold reconcilePool at hr
  simp only [mapSize] at hr
  split_ifs at hr
  · cases hr
  · rcases shrink_removed_from_pool _ pool [] r hr with h | ⟨k, r0, hk, rfl⟩
    · cases h
    · exact ⟨rfl, k, r0, hk, rfl⟩
  · cases hr

theorem claim8_destroy_behavior_witness :
    ({ index := 1, widgetId := 1, value := "", lineNumberText := "2",
        lineNumberVisible := true,
        listeners := ["input", "keydown", "focus", "blur",
          "virtual-keyboard-toggle", "mousedown"],
        inDocument := false } : MathFieldRef).inDocument = false ∧
    ∃ k r0, (k, r0) ∈ (reconcilePool ["a", ""] true true [] 0).pool ∧
      ({ index := 1, widgetId := 1, value := "", lineNumberText := "2",
          lineNumberVisible := true,
          listeners := ["input", "keydown", "focus", "blur",
            "virtual-keyboard-toggle", "mousedown"],
          inDocument := false } : MathFieldRef)
        = { r0 with inDocument := false } :=
  (claim8_destroy_behavior ["a"] true true
    (reconcilePool ["a", ""] true true [] 0).pool 2).1 _ (by decide)

/-- Claim C9: the deferred focus task after a removal at index `i`
targets `max (i-1) 0`; if that record no longer exists when the task
fires, the task silently performs no focus change (the lookup-and-focus
is a total function — it never throws). -/
theorem claim9_deferred_focus :
    ∀ (currentIndex : Nat) (pool : PoolMap),
      (removalFocusTarget currentIndex = max (currentIndex - 1) 0) ∧
      (mapGet pool (removalFocusTarget currentIndex) = none →
        deferredFocusAfterRemoval pool currentIndex = none) ∧
      (∀ r, mapGet pool (removalFocusTarget currentIndex) = some r →
        deferredFocusAfterRemoval pool currentIndex = some r.widgetId) := by
  intro i pool
  refine ⟨?_, ?_, ?_⟩
  · unfold removalFocusTarget
    rw [Nat.max_zero]
    split_ifs with h <;> omega
  · intro h
    unfold deferredFocusAfterRemoval
    rw [h]
  · intro r h
    unfold deferredFocusAfterRemoval
    rw [h]

theorem claim9_deferred_focus_witness :
    deferredFocusAfterRemoval [] 3 = none :=
  (claim9_deferred_focus 3 []).2.1 rfl

/-- Claim C10: an empty `initialEquations` seeds the internal list with
a single blank line `[""]`, both at mount (`useState` initializer) and at
an externally-driven reset (the sync effect applies the same seeding
expression whenever the incoming value differs), so the editor never
seeds an empty line list from its public inputs. -/
theorem claim10_seed_nonempty :
    (seedEquations [] = [""]) ∧
    (∀ init : List String, seedEquations init ≠ []) ∧
    (∀ init cur : List String, init ≠ cur →
      syncInitialEquations init cur = seedEquations init) ∧
    (syncInitialEquations [] ["a"] = [""]) := by
  refine ⟨rfl, ?_, ?_, by decide⟩
  · intro init
    unfold seedEquations
    split_ifs with h
    · intro hc
      rw [hc] at h
      simp at h
    · simp
  · intro init cur h
    unfold syncInitialEquations
    rw [if_pos h]

theorem claim10_seed_nonempty_witness :
    syncInitialEquations [""] ["a"] = seedEquations [""] :=
  claim10_seed_nonempty.2.2.1 [""] ["a"] (by decide)

end MathLiveMultilineEditor
